import Mathlib

/-!
# Budget-constrained context assembly engine: a shallow embedding

This file embeds the core of the `context-window-aware-RAG` repository in
Lean 4 and proves properties of it:

* `src/utils/token_counter.py` — `TokenCounter.count_tokens` (character
  approximation fallback mode) and `TokenCounter.truncate_to_budget`;
* `src/core/prioritizer.py` — the five per-section truncation strategies and
  `prioritize_sections`;
* `src/core/budget_manager.py` — `BudgetConfig` and `validate_context`;
* `src/core/context_assembler.py` — `_apply_truncation` and `assemble`.

Text is modelled as `List Char`.  Python floating-point scores and timestamps
are modelled as `Rat`; the fractional constants `0.4`, `0.7`, `0.3`, `0.8`
appearing in truncation heuristics are modelled by exact integer
cross-multiplication (e.g. `int(n * 0.4)` as `n * 2 / 5`), which agrees with
CPython float arithmetic except possibly on razor-edge ties; no theorem below
depends on such a tie.  Collaborator-produced data (formatted section text,
memory items, tool-output records) are passed to `assemble` as parameters,
mirroring the snapshot the Python orchestrator reads from its collaborators.
-/

/-- The whitespace characters recognised by Python `str.split()`:
space, tab, newline, carriage return, vertical tab, form feed. -/
def isPySpace (c : Char) : Bool :=
  c == ' ' || c == '\t' || c == '\n' || c == '\r' ||
    c == Char.ofNat 11 || c == Char.ofNat 12

/-- Helper for `pySplit`: `acc` holds the characters of the word currently
being read, in reverse order. -/
def pySplitAux : List Char → List Char → List (List Char)
  | [], acc => if acc = [] then [] else [acc.reverse]
  | c :: rest, acc =>
    if isPySpace c then
      if acc = [] then pySplitAux rest [] else acc.reverse :: pySplitAux rest []
    else
      pySplitAux rest (c :: acc)

/-- Python `text.split()`: the maximal whitespace-free runs of `text`. -/
def pySplit (t : List Char) : List (List Char) :=
  pySplitAux t []

/-- Python `' '.join(text.split())`: whitespace-collapsed text. -/
def pyCollapse (t : List Char) : List Char :=
  List.intercalate [' '] (pySplit t)

/-- Python `text.strip()`: drop leading and trailing whitespace. -/
def pyStrip (t : List Char) : List Char :=
  ((t.dropWhile isPySpace).reverse.dropWhile isPySpace).reverse

/-- Helper for `pyRFind`: scan with current index and best match so far. -/
def pyRFindAux (c : Char) : List Char → Nat → Int → Int
  | [], _, best => best
  | x :: rest, i, best => pyRFindAux c rest (i + 1) (if x = c then (i : Int) else best)

/-- Python `text.rfind(c)`: index of the last occurrence of `c`, `-1` if none. -/
def pyRFind (t : List Char) (c : Char) : Int :=
  pyRFindAux c t 0 (-1)

/-- Helper for `pyFind`. -/
def pyFindAux (c : Char) : List Char → Nat → Int
  | [], _ => -1
  | x :: rest, i => if x = c then (i : Int) else pyFindAux c rest (i + 1)

/-- Python `text.find(c)`: index of the first occurrence of `c`, `-1` if none. -/
def pyFind (t : List Char) (c : Char) : Int :=
  pyFindAux c t 0

/-- Python `text[-n:]`.  Note the Python quirk that `text[-0:]` is the whole
string, faithfully preserved here. -/
def pySliceLast (t : List Char) (n : Nat) : List Char :=
  if n = 0 then t else t.drop (t.length - n)

/-- `TokenCounter.CHARS_PER_TOKEN`: character-to-token ratio of the fallback
approximation. -/
def CHARS_PER_TOKEN : Nat := 4

/-- `TokenCounter.count_tokens` in character-approximation fallback mode
(tiktoken unavailable): `0` for the empty string, otherwise
`max(1, len(' '.join(text.split())) // 4)`. -/
def count_tokens (t : List Char) : Nat :=
  if t = [] then 0 else max 1 ((pyCollapse t).length / CHARS_PER_TOKEN)

/-- The loop of `TokenCounter.truncate_to_budget`: binary search over prefix
lengths for the largest prefix whose token count fits `budget - 3`
(3 tokens reserved for the `"..."` marker).  `best` is the best candidate
found so far (initially the empty string). -/
def bsearchTrunc (t : List Char) (budget : Nat) (left right : Nat)
    (best : List Char) : List Char :=
  if _h : left < right then
    let mid := (left + right + 1) / 2
    let candidate := t.take mid
    if (count_tokens candidate : Int) ≤ (budget : Int) - 3 then
      bsearchTrunc t budget mid right candidate
    else
      bsearchTrunc t budget left (mid - 1) best
  else
    best
termination_by right - left
decreasing_by
  · omega
  · omega

/-- `TokenCounter.truncate_to_budget`: return `text` if it already fits,
otherwise binary-search the largest prefix fitting `budget - 3`, strip it,
back off to the last space when it lies in the final 20% of the candidate
(the comparison `last_space > len * 0.8` in exact arithmetic), and append
the `"..."` marker. -/
def truncate_to_budget (t : List Char) (budget : Nat) : List Char :=
  if count_tokens t ≤ budget then t
  else
    let best := bsearchTrunc t budget 0 t.length []
    let truncated := pyStrip best
    let last_space := pyRFind truncated ' '
    let truncated2 :=
      if last_space * 5 > (truncated.length : Int) * 4 then
        truncated.take last_space.toNat
      else truncated
    truncated2 ++ ['.', '.', '.']

/-- `RetrievalChunk` of `src/core/prioritizer.py`; the float relevance score
is modelled as a rational. -/
structure RetrievalChunk where
  content : List Char
  score : Rat
  source : List Char
  tokens : Nat
deriving DecidableEq

/-- `ToolOutput` of `src/core/prioritizer.py`; the float timestamp is
modelled as a rational. -/
structure ToolOutput where
  content : List Char
  timestamp : Rat
  success : Bool
  tokens : Nat
deriving DecidableEq

/-- `Prioritizer.truncate_instructions`: instructions are NEVER truncated.
The source computes the token count only to log a configuration error when
it exceeds the budget; the original text is returned unconditionally. -/
def truncate_instructions (instructions : List Char) (budget : Nat) : List Char :=
  let _tokens := count_tokens instructions
  let _overBudget := budget < _tokens
  instructions

/-- The visible gap marker `" [...] "` joining the head and tail kept by
`Prioritizer.truncate_goal`. -/
def goalGap : List Char := [' ', '[', '.', '.', '.', ']', ' ']

/-- The head part kept by `Prioritizer.truncate_goal`: the first
`int(budget * CHARS_PER_TOKEN * 0.4)` characters, stripped, snapped back to
the last sentence boundary when one lies in the final 30% of the window
(the comparison `start_last_period > start_chars * 0.7` in exact
arithmetic). -/
def goalStartPart (goal : List Char) (budget : Nat) : List Char :=
  let start_chars := budget * CHARS_PER_TOKEN * 2 / 5
  let start_part := pyStrip (goal.take start_chars)
  let start_last_period := pyRFind start_part '.'
  if start_last_period * 10 > (start_chars : Int) * 7 then
    start_part.take (start_last_period.toNat + 1)
  else start_part

/-- The tail part kept by `Prioritizer.truncate_goal`: the last
`int(budget * CHARS_PER_TOKEN * 0.4)` characters, stripped, snapped forward
past the first sentence boundary when one lies in the first 30% of the
window (the comparison `end_first_period < end_chars * 0.3` in exact
arithmetic). -/
def goalEndPart (goal : List Char) (budget : Nat) : List Char :=
  let end_chars := budget * CHARS_PER_TOKEN * 2 / 5
  let end_part := pyStrip (pySliceLast goal end_chars)
  let end_first_period := pyFind end_part '.'
  if end_first_period ≠ -1 ∧ end_first_period * 10 < (end_chars : Int) * 3 then
    pyStrip (end_part.drop (end_first_period.toNat + 1))
  else end_part

/-- `Prioritizer.truncate_goal`: keep the goal unchanged when it fits,
otherwise keep its head and tail (≈40% of the character target each) joined
by the visible gap marker. -/
def truncate_goal (goal : List Char) (budget : Nat) : List Char :=
  if count_tokens goal ≤ budget then goal
  else goalStartPart goal budget ++ goalGap ++ goalEndPart goal budget

/-- Sum of `f` over a list (cumulative token cost of the items kept so far). -/
def sumF (f : α → Nat) (l : List α) : Nat := (l.map f).sum

/-- The fits-or-stop greedy selection loop shared by
`Prioritizer.truncate_memory` (applied to the reversed item list) and
`Prioritizer.truncate_tool_outputs`: accept items in order while the running
total stays within budget, stop at the first item that would overflow. -/
def fitLoop (f : α → Nat) (budget : Nat) : List α → Nat → List α
  | [], _ => []
  | x :: rest, total =>
    if total + f x ≤ budget then x :: fitLoop f budget rest (total + f x)
    else []

/-- `Prioritizer.truncate_memory`: walk the items from most recent (last) to
oldest accumulating within budget, and return the kept items joined by
newlines in original chronological order. -/
def truncate_memory (memory_items : List (List Char)) (budget : Nat) : List Char :=
  List.intercalate ['\n'] ((fitLoop count_tokens budget memory_items.reverse 0).reverse)

/-- The order in which `sorted(chunks, key=lambda x: x.score, reverse=True)`
arranges retrieval chunks: descending relevance score.  Ties keep their
original relative order in both Python's stable sort and the insertion sort
used below, so the two sorts compute the same list. -/
def chunkBefore (a b : RetrievalChunk) : Prop := b.score ≤ a.score

instance : DecidableRel chunkBefore := fun a b => by
  unfold chunkBefore; infer_instance

instance : IsTotal RetrievalChunk chunkBefore :=
  ⟨fun a b => le_total b.score a.score⟩

instance : IsTrans RetrievalChunk chunkBefore :=
  ⟨fun _ _ _ hab hbc => le_trans hbc hab⟩

/-- `sorted(chunks, key=lambda x: x.score, reverse=True)` as a stable sort. -/
def sortChunks (chunks : List RetrievalChunk) : List RetrievalChunk :=
  List.insertionSort chunkBefore chunks

/-- The partial chunk built by `Prioritizer.truncate_retrieval` when the next
chunk does not fit but meaningful budget remains: its content is the
prefix-truncation of the chunk's content to the remaining budget, and its
`tokens` field is set to the remaining budget. -/
def partChunk (c : RetrievalChunk) (remaining_budget : Nat) : RetrievalChunk :=
  { content := truncate_to_budget c.content remaining_budget
    score := c.score
    source := c.source
    tokens := remaining_budget }

/-- The selection loop of `Prioritizer.truncate_retrieval`: greedily accept
whole chunks while within budget; at the first chunk that does not fit,
include a partial chunk when more than 50 tokens of budget remain, then stop
either way. -/
def retrLoop (budget : Nat) : List RetrievalChunk → Nat → List RetrievalChunk
  | [], _ => []
  | c :: rest, total =>
    if total + c.tokens ≤ budget then c :: retrLoop budget rest (total + c.tokens)
    else if 50 < budget - total then [partChunk c (budget - total)] else []

/-- Zero-pad a number below 1000 to three digits. -/
def pad3 (n : Nat) : List Char :=
  (if n < 10 then ['0', '0'] else if n < 100 then ['0'] else []) ++ (Nat.repr n).data

/-- Decimal rendering of a relevance score with three decimals, standing in
for Python `f"{score:.3f}"`.  (CPython rounds the underlying binary double
half-to-even; this renders the modelled rational rounded half-up.  No claim
below depends on the rendered digits.) -/
def formatScore3 (q : Rat) : List Char :=
  let milli := (round (q * 1000) : Int).natAbs
  (if q < 0 then ['-'] else []) ++ (Nat.repr (milli / 1000)).data ++ ['.'] ++ pad3 (milli % 1000)

/-- The chunk enumeration of `Prioritizer.truncate_retrieval`:
`"[Source {i}: {source}, Relevance: {score:.3f}]\n{content}"`. -/
def formatChunksAux : Nat → List RetrievalChunk → List (List Char)
  | _, [] => []
  | i, c :: rest =>
    ("[Source ".toList ++ (Nat.repr i).data ++ ": ".toList ++ c.source ++
      ", Relevance: ".toList ++ formatScore3 c.score ++ "]".toList ++
      ['\n'] ++ c.content) :: formatChunksAux (i + 1) rest

/-- Selected retrieval chunks formatted and joined by blank lines. -/
def formatChunks (selected : List RetrievalChunk) : List Char :=
  List.intercalate ['\n', '\n'] (formatChunksAux 1 selected)

/-- `Prioritizer.truncate_retrieval`: sort by relevance score descending,
greedily select within budget (with at most one trailing partial chunk),
and format the selected chunks. -/
def truncate_retrieval (chunks : List RetrievalChunk) (budget : Nat) : List Char :=
  if chunks = [] then []
  else formatChunks (retrLoop budget (sortChunks chunks) 0)

/-- The order in which
`sorted(outputs, key=lambda x: (x.success, x.timestamp), reverse=True)`
arranges tool outputs: successful records before failed ones, newer before
older within the same success flag.  Ties keep their original relative order
in both Python's stable sort and the insertion sort used below. -/
def toolBefore (a b : ToolOutput) : Prop :=
  b.success < a.success ∨ (a.success = b.success ∧ b.timestamp ≤ a.timestamp)

instance : DecidableRel toolBefore := fun a b => by
  unfold toolBefore; infer_instance

instance : IsTotal ToolOutput toolBefore := by
  constructor
  intro a b
  unfold toolBefore
  rcases lt_or_le b.success a.success with h | h
  · exact Or.inl (Or.inl h)
  · rcases lt_or_eq_of_le h with h' | h'
    · exact Or.inr (Or.inl h')
    · rcases le_total b.timestamp a.timestamp with ht | ht
      · exact Or.inl (Or.inr ⟨h', ht⟩)
      · exact Or.inr (Or.inr ⟨h'.symm, ht⟩)

instance : IsTrans ToolOutput toolBefore := by
  constructor
  intro a b c hab hbc
  unfold toolBefore at *
  rcases hab with h1 | ⟨h1, h1t⟩ <;> rcases hbc with h2 | ⟨h2, h2t⟩
  · exact Or.inl (lt_trans h2 h1)
  · exact Or.inl (h2 ▸ h1)
  · exact Or.inl (h1 ▸ h2)
  · exact Or.inr ⟨h1.trans h2, le_trans h2t h1t⟩

/-- `sorted(outputs, key=lambda x: (x.success, x.timestamp), reverse=True)`
as a stable sort. -/
def sortTools (outputs : List ToolOutput) : List ToolOutput :=
  List.insertionSort toolBefore outputs

/-- The output enumeration of `Prioritizer.truncate_tool_outputs`:
`"[Output {i} - {status}]\n{content}"`. -/
def formatToolsAux : Nat → List ToolOutput → List (List Char)
  | _, [] => []
  | i, o :: rest =>
    ("[Output ".toList ++ (Nat.repr i).data ++ " - ".toList ++
      (if o.success then "SUCCESS".toList else "FAILED".toList) ++ "]".toList ++
      ['\n'] ++ o.content) :: formatToolsAux (i + 1) rest

/-- Selected tool outputs formatted and joined by blank lines. -/
def formatTools (selected : List ToolOutput) : List Char :=
  List.intercalate ['\n', '\n'] (formatToolsAux 1 selected)

/-- `Prioritizer.truncate_tool_outputs`: sort success-first then
newest-first, greedily select whole records within budget (fits-or-stop, no
partial splitting), and format the selected records. -/
def truncate_tool_outputs (outputs : List ToolOutput) (budget : Nat) : List Char :=
  if outputs = [] then []
  else formatTools (fitLoop ToolOutput.tokens budget (sortTools outputs) 0)

/-- The fixed cross-section arbitration order of
`Prioritizer.prioritize_sections`, least protected first, each with its
strategy label. -/
def priority_order : List (String × String) :=
  [("memory", "FIFO queue"),
   ("tool_outputs", "Keep recent successful"),
   ("retrieval", "Keep highest relevance"),
   ("goal", "Keep start and end"),
   ("instructions", "NEVER TRUNCATE")]

/-- `Prioritizer.prioritize_sections`: walk the fixed priority order and keep
exactly the sections present in the overage map, pairing each with its
overage amount and strategy label. -/
def prioritize_sections (overages : List (String × Nat)) :
    List (String × Nat × String) :=
  priority_order.filterMap fun p =>
    match overages.lookup p.1 with
    | some amount => some (p.1, amount, p.2)
    | none => none

/-- `BudgetConfig` of `src/core/budget_manager.py`: the five configured
per-section capacities (defaults 255/1500/55/550/855 in the source). -/
structure BudgetConfig where
  instructions : Nat
  goal : Nat
  memory : Nat
  retrieval : Nat
  tool_outputs : Nat
deriving DecidableEq

/-- Derived total capacity. -/
def BudgetConfig.total (c : BudgetConfig) : Nat :=
  c.instructions + c.goal + c.memory + c.retrieval + c.tool_outputs

/-- `BudgetAllocation`: the measured per-section token usage of one assembly
attempt. -/
structure BudgetAllocation where
  instructions : Nat
  goal : Nat
  memory : Nat
  retrieval : Nat
  tool_outputs : Nat
deriving DecidableEq

/-- Derived total usage. -/
def BudgetAllocation.total (a : BudgetAllocation) : Nat :=
  a.instructions + a.goal + a.memory + a.retrieval + a.tool_outputs

/-- The context-part mapping flowing through the pipeline: one text per fixed
section name (the section enumeration is closed in the source). -/
structure ContextParts where
  instructions : List Char
  goal : List Char
  memory : List Char
  retrieval : List Char
  tool_outputs : List Char
deriving DecidableEq

/-- `BudgetManager.get_section_budget`: capacity of a section by name,
`0` for an unknown name. -/
def get_section_budget (cfg : BudgetConfig) (section_name : String) : Nat :=
  if section_name = "instructions" then cfg.instructions
  else if section_name = "goal" then cfg.goal
  else if section_name = "memory" then cfg.memory
  else if section_name = "retrieval" then cfg.retrieval
  else if section_name = "tool_outputs" then cfg.tool_outputs
  else 0

/-- `BudgetManager.validate_context`: measure every section, and report
`(all_within_budget, allocation, overages)` where the overage map lists each
section exceeding its capacity with the positive overage amount (as a
key-ordered association list, mirroring the insertion order of the Python
dict). -/
def validate_context (cfg : BudgetConfig) (ctx : ContextParts) :
    Bool × BudgetAllocation × List (String × Nat) :=
  let alloc : BudgetAllocation :=
    ⟨count_tokens ctx.instructions, count_tokens ctx.goal, count_tokens ctx.memory,
      count_tokens ctx.retrieval, count_tokens ctx.tool_outputs⟩
  let overages : List (String × Nat) :=
    (if cfg.instructions < alloc.instructions then
      [("instructions", alloc.instructions - cfg.instructions)] else []) ++
    (if cfg.goal < alloc.goal then [("goal", alloc.goal - cfg.goal)] else []) ++
    (if cfg.memory < alloc.memory then [("memory", alloc.memory - cfg.memory)] else []) ++
    (if cfg.retrieval < alloc.retrieval then
      [("retrieval", alloc.retrieval - cfg.retrieval)] else []) ++
    (if cfg.tool_outputs < alloc.tool_outputs then
      [("tool_outputs", alloc.tool_outputs - cfg.tool_outputs)] else [])
  (overages.isEmpty, alloc, overages)

/-- The result record of one `ContextAssembler.assemble` call. -/
structure AssembledContext where
  context_parts : ContextParts
  allocation : BudgetAllocation
  truncation_applied : Bool
  truncation_details : List (String × String)
deriving DecidableEq

/-- The loop body of `ContextAssembler._apply_truncation`: walk the
truncation plan, replacing each planned section of the accumulator
`truncated` with the strategy's output on the ORIGINAL gathered content
`ctx`, and appending one explanation per truncated section.  `mi` is the
memory-item snapshot `conversation_memory.get_memory_items()` and `touts`
the tool-record snapshot `tool_manager.get_recent_outputs()`. -/
def applyLoop (cfg : BudgetConfig) (ctx : ContextParts) (mi : List (List Char))
    (touts : List ToolOutput) :
    List (String × Nat × String) → ContextParts → List (String × String) →
      ContextParts × List (String × String)
  | [], truncated, details => (truncated, details)
  | (s, _, _) :: plan, truncated, details =>
    let budget := get_section_budget cfg s
    if s = "instructions" then
      applyLoop cfg ctx mi touts plan
        { truncated with instructions := truncate_instructions ctx.instructions budget }
        (details ++ [(s, "ERROR: Instructions should never be truncated")])
    else if s = "goal" then
      applyLoop cfg ctx mi touts plan
        { truncated with goal := truncate_goal ctx.goal budget }
        (details ++ [(s, "Truncated using start+end strategy to " ++
          Nat.repr budget ++ " tokens")])
    else if s = "memory" then
      applyLoop cfg ctx mi touts plan
        { truncated with memory := truncate_memory mi budget }
        (details ++ [(s, "Kept most recent exchanges within " ++
          Nat.repr budget ++ " tokens")])
    else if s = "retrieval" then
      if budget < count_tokens ctx.retrieval then
        applyLoop cfg ctx mi touts plan
          { truncated with retrieval := truncate_to_budget ctx.retrieval budget }
          (details ++ [(s, "Hard truncated to " ++ Nat.repr budget ++ " tokens")])
      else
        applyLoop cfg ctx mi touts plan
          { truncated with retrieval := ctx.retrieval } details
    else if s = "tool_outputs" then
      applyLoop cfg ctx mi touts plan
        { truncated with tool_outputs := truncate_tool_outputs touts budget }
        (details ++ [(s, "Kept recent successful outputs within " ++
          Nat.repr budget ++ " tokens")])
    else
      applyLoop cfg ctx mi touts plan truncated details

/-- `ContextAssembler._apply_truncation`: run the per-section strategies over
the prioritized truncation plan, starting from a copy of the gathered
context. -/
def apply_truncation (cfg : BudgetConfig) (ctx : ContextParts)
    (mi : List (List Char)) (touts : List ToolOutput)
    (overages : List (String × Nat)) : ContextParts × List (String × String) :=
  applyLoop cfg ctx mi touts (prioritize_sections overages) ctx []

/-- `ContextAssembler.assemble`, from the point where the raw context has
been gathered: validate, truncate if invalid, re-validate (the source only
LOGS a residual violation at this point — no further modification is made),
and return the assembled result.  `raw` is the gathered context, `mi` and
`touts` the collaborator snapshots consulted by the truncation pass. -/
def assemble (cfg : BudgetConfig) (raw : ContextParts) (mi : List (List Char))
    (touts : List ToolOutput) : AssembledContext :=
  let v := validate_context cfg raw
  let ft :=
    if v.1 then (raw, ([] : List (String × String)))
    else apply_truncation cfg raw mi touts v.2.2
  let fv := validate_context cfg ft.1
  { context_parts := ft.1
    allocation := fv.2.1
    truncation_applied := !v.1
    truncation_details := ft.2 }

/-- Combined length of a split word list: total characters plus one separator
slot per word (so the space-joined text has length `wordsLen ps - 1`). -/
def wordsLen (ps : List (List Char)) : Nat := (ps.map List.length).sum + ps.length

theorem intercalate_space_length :
    ∀ ps : List (List Char), (List.intercalate [' '] ps).length = wordsLen ps - 1
  | [] => by simp [wordsLen, List.intercalate]
  | [a] => by simp [wordsLen, List.intercalate]
  | a :: b :: ps => by
    have ih := intercalate_space_length (b :: ps)
    have h2 : List.intercalate [' '] (a :: b :: ps) =
        a ++ [' '] ++ List.intercalate [' '] (b :: ps) := by
      simp [List.intercalate, List.intersperse]
    have h3 : 1 ≤ wordsLen (b :: ps) := by simp [wordsLen]; omega
    simp only [h2, List.length_append, List.length_cons, ih, wordsLen,
      List.map_cons, List.sum_cons, List.length_nil] at *
    omega

theorem wordsLen_nil : wordsLen [] = 0 := by simp [wordsLen]

theorem wordsLen_cons (w : List Char) (ps : List (List Char)) :
    wordsLen (w :: ps) = w.length + 1 + wordsLen ps := by
  simp [wordsLen]; omega

theorem wordsLen_splitAux_lower :
    ∀ (l acc : List Char), acc ≠ [] → acc.length + 1 ≤ wordsLen (pySplitAux l acc)
  | [], acc, h => by simp [pySplitAux, h, wordsLen_cons, wordsLen_nil]
  | c :: rest, acc, h => by
    cases hc : isPySpace c
    · have ih := wordsLen_splitAux_lower rest (c :: acc) (by simp)
      simp only [pySplitAux, hc] at ih ⊢
      simp only [List.length_cons] at ih
      simp only [Bool.false_eq_true, if_false]
      omega
    · simp only [pySplitAux, hc, if_true, if_neg h, wordsLen_cons,
        List.length_reverse]
      omega

theorem wordsLen_splitAux_mono_acc :
    ∀ (l acc acc' : List Char), acc.length ≤ acc'.length →
      wordsLen (pySplitAux l acc) ≤ wordsLen (pySplitAux l acc')
  | [], acc, acc', h => by
    by_cases ha : acc = []
    · subst ha
      by_cases ha' : acc' = [] <;>
        simp [pySplitAux, ha', wordsLen_cons, wordsLen_nil]
    · have ha' : acc' ≠ [] := by
        intro hx; subst hx; simp at h; exact ha h
      simp [pySplitAux, ha, ha', wordsLen_cons, wordsLen_nil]
      omega
  | c :: rest, acc, acc', h => by
    cases hc : isPySpace c
    · have ih := wordsLen_splitAux_mono_acc rest (c :: acc) (c :: acc') (by simpa using h)
      simpa [pySplitAux, hc] using ih
    · by_cases ha : acc = []
      · subst ha
        by_cases ha' : acc' = []
        · subst ha'; simp [pySplitAux, hc]
        · simp only [pySplitAux, hc, if_true, if_pos rfl, if_neg ha', wordsLen_cons,
            List.length_reverse]
          omega
      · have ha' : acc' ≠ [] := by
          intro hx; subst hx; simp at h; exact ha h
        simp only [pySplitAux, hc, if_true, if_neg ha, if_neg ha', wordsLen_cons,
          List.length_reverse]
        omega

theorem wordsLen_splitAux_upper :
    ∀ (l acc : List Char), wordsLen (pySplitAux l acc) ≤ l.length + acc.length + 1
  | [], acc => by
    by_cases ha : acc = [] <;>
      simp [pySplitAux, ha, wordsLen_cons, wordsLen_nil]
  | c :: rest, acc => by
    cases hc : isPySpace c
    · have ih := wordsLen_splitAux_upper rest (c :: acc)
      simp only [pySplitAux, hc, Bool.false_eq_true, if_false]
      simp only [List.length_cons] at ih ⊢
      omega
    · have ih := wordsLen_splitAux_upper rest []
      by_cases ha : acc = []
      · subst ha
        simp only [pySplitAux, hc, if_true, if_pos rfl, List.length_cons,
          List.length_nil] at ih ⊢
        omega
      · simp only [pySplitAux, hc, if_true, if_neg ha, wordsLen_cons,
          List.length_reverse, List.length_cons, List.length_nil] at ih ⊢
        omega

theorem wordsLen_splitAux_take :
    ∀ (l : List Char) (n : Nat) (acc : List Char),
      wordsLen (pySplitAux (l.take n) acc) ≤ wordsLen (pySplitAux l acc)
  | l, 0, acc => by
    by_cases ha : acc = []
    · simp [pySplitAux, ha, wordsLen_nil]
    · simpa [pySplitAux, ha, wordsLen_cons, wordsLen_nil] using
        wordsLen_splitAux_lower l acc ha
  | [], n + 1, acc => by simp
  | c :: rest, n + 1, acc => by
    cases hc : isPySpace c
    · have ih := wordsLen_splitAux_take rest n (c :: acc)
      simpa [pySplitAux, hc] using ih
    · have ih := wordsLen_splitAux_take rest n []
      by_cases ha : acc = []
      · subst ha
        simpa [pySplitAux, hc] using ih
      · simp only [List.take_succ_cons, pySplitAux, hc, if_true, if_neg ha,
          wordsLen_cons, List.length_reverse]
        omega

theorem wordsLen_splitAux_ext :
    ∀ (l acc ext : List Char),
      wordsLen (pySplitAux l (acc ++ ext)) ≤
        wordsLen (pySplitAux l acc) + ext.length + 1
  | [], acc, ext => by
    by_cases ha : acc = []
    · subst ha
      by_cases he : ext = [] <;>
        simp [pySplitAux, he, wordsLen_cons, wordsLen_nil]
    · have hae : acc ++ ext ≠ [] := by simp [ha]
      simp [pySplitAux, ha, hae, wordsLen_cons, wordsLen_nil]
      omega
  | c :: rest, acc, ext => by
    cases hc : isPySpace c
    · have ih := wordsLen_splitAux_ext rest (c :: acc) ext
      simp only [← List.cons_append] at ih ⊢
      simpa [pySplitAux, hc] using ih
    · by_cases ha : acc = []
      · subst ha
        by_cases he : ext = []
        · subst he; simp [pySplitAux, hc]
        · simp only [List.nil_append, pySplitAux, hc, if_true, if_neg he,
            if_pos rfl, wordsLen_cons, List.length_reverse]
          omega
      · have hae : acc ++ ext ≠ [] := by simp [ha]
        simp only [pySplitAux, hc, if_true, if_neg ha, if_neg hae, wordsLen_cons,
          List.length_reverse, List.length_append]
        omega

theorem wordsLen_splitAux_append :
    ∀ (a b acc : List Char),
      wordsLen (pySplitAux (a ++ b) acc) ≤
        wordsLen (pySplitAux a acc) + wordsLen (pySplitAux b [])
  | [], b, acc => by
    by_cases ha : acc = []
    · subst ha; simp [pySplitAux]
    · have hext := wordsLen_splitAux_ext b [] acc
      simp only [List.nil_append] at hext
      simp only [List.nil_append, pySplitAux, ha, if_neg ha, if_false, wordsLen_cons,
        wordsLen_nil, List.length_reverse]
      omega
  | c :: rest, b, acc => by
    cases hc : isPySpace c
    · have ih := wordsLen_splitAux_append rest b (c :: acc)
      simpa [pySplitAux, hc] using ih
    · have ih := wordsLen_splitAux_append rest b []
      by_cases ha : acc = []
      · subst ha
        simpa [pySplitAux, hc] using ih
      · simp only [List.cons_append, pySplitAux, hc, if_true, if_neg ha,
          wordsLen_cons, List.length_reverse, List.append_eq]
        omega

theorem pyCollapse_length (t : List Char) :
    (pyCollapse t).length = wordsLen (pySplit t) - 1 :=
  intercalate_space_length _

theorem pyCollapse_length_le (t : List Char) : (pyCollapse t).length ≤ t.length := by
  have h := wordsLen_splitAux_upper t []
  rw [pyCollapse_length]
  unfold pySplit
  simp at h
  omega

theorem pyCollapse_length_take_le (t : List Char) (n : Nat) :
    (pyCollapse (t.take n)).length ≤ (pyCollapse t).length := by
  have h := wordsLen_splitAux_take t n []
  rw [pyCollapse_length, pyCollapse_length]
  unfold pySplit
  omega

theorem wordsLen_split_tail_le (c : Char) (t : List Char) :
    wordsLen (pySplit t) ≤ wordsLen (pySplit (c :: t)) := by
  unfold pySplit
  cases hc : isPySpace c
  · have h := wordsLen_splitAux_mono_acc t [] [c] (by simp)
    simpa [pySplitAux, hc] using h
  · simp [pySplitAux, hc]

theorem wordsLen_split_drop_le (t : List Char) (n : Nat) :
    wordsLen (pySplit (t.drop n)) ≤ wordsLen (pySplit t) := by
  induction n generalizing t with
  | zero => simp
  | succ n ih =>
    cases t with
    | nil => simp
    | cons c rest =>
      calc wordsLen (pySplit ((c :: rest).drop (n + 1)))
          = wordsLen (pySplit (rest.drop n)) := by simp
        _ ≤ wordsLen (pySplit rest) := ih rest
        _ ≤ wordsLen (pySplit (c :: rest)) := wordsLen_split_tail_le c rest

theorem pyCollapse_length_drop_le (t : List Char) (n : Nat) :
    (pyCollapse (t.drop n)).length ≤ (pyCollapse t).length := by
  have h := wordsLen_split_drop_le t n
  rw [pyCollapse_length, pyCollapse_length]
  omega

theorem pyCollapse_length_append_le (a b : List Char) :
    (pyCollapse (a ++ b)).length ≤ (pyCollapse a).length + (pyCollapse b).length + 1 := by
  have h := wordsLen_splitAux_append a b []
  rw [pyCollapse_length, pyCollapse_length, pyCollapse_length]
  unfold pySplit
  omega

theorem count_tokens_pos (t : List Char) (h : t ≠ []) : 1 ≤ count_tokens t := by
  unfold count_tokens
  rw [if_neg h]
  exact le_max_left _ _

theorem count_tokens_le_iff (t : List Char) (b : Nat) (hb : 1 ≤ b) :
    count_tokens t ≤ b ↔ (pyCollapse t).length / CHARS_PER_TOKEN ≤ b := by
  unfold count_tokens
  by_cases h : t = []
  · subst h
    simp [pyCollapse, pySplit, pySplitAux, List.intercalate]
  · rw [if_neg h]
    omega

theorem count_tokens_take_le (t : List Char) (n : Nat) :
    count_tokens (t.take n) ≤ count_tokens t := by
  unfold count_tokens
  by_cases ht : t.take n = []
  · simp [ht]
  · have h : t ≠ [] := by
      intro hx; subst hx; simp at ht
    rw [if_neg ht, if_neg h]
    have := pyCollapse_length_take_le t n
    have : (pyCollapse (t.take n)).length / CHARS_PER_TOKEN ≤
        (pyCollapse t).length / CHARS_PER_TOKEN := Nat.div_le_div_right this
    omega

theorem count_tokens_drop_le (t : List Char) (n : Nat) :
    count_tokens (t.drop n) ≤ count_tokens t := by
  unfold count_tokens
  by_cases ht : t.drop n = []
  · simp [ht]
  · have h : t ≠ [] := by
      intro hx; subst hx; simp at ht
    rw [if_neg ht, if_neg h]
    have := pyCollapse_length_drop_le t n
    have : (pyCollapse (t.drop n)).length / CHARS_PER_TOKEN ≤
        (pyCollapse t).length / CHARS_PER_TOKEN := Nat.div_le_div_right this
    omega

theorem dropWhile_eq_drop (p : Char → Bool) :
    ∀ l : List Char, ∃ n, l.dropWhile p = l.drop n
  | [] => ⟨0, rfl⟩
  | c :: rest => by
    cases hc : p c
    · exact ⟨0, by simp [List.dropWhile, hc]⟩
    · obtain ⟨n, hn⟩ := dropWhile_eq_drop p rest
      exact ⟨n + 1, by simp [List.dropWhile, hc, hn]⟩

theorem pyStrip_eq_drop_take (t : List Char) :
    ∃ a b, pyStrip t = (t.drop a).take b := by
  obtain ⟨a, ha⟩ := dropWhile_eq_drop isPySpace t
  obtain ⟨m, hm⟩ := dropWhile_eq_drop isPySpace (t.dropWhile isPySpace).reverse
  refine ⟨a, (t.drop a).length - m, ?_⟩
  have : pyStrip t = ((t.drop a).reverse.drop m).reverse := by
    rw [pyStrip, ha, ← ha, hm, ha]
  rw [this, ← List.rdrop_eq_reverse_drop_reverse, List.rdrop]

theorem count_tokens_pyStrip_le (t : List Char) :
    count_tokens (pyStrip t) ≤ count_tokens t := by
  obtain ⟨a, b, h⟩ := pyStrip_eq_drop_take t
  rw [h]
  exact le_trans (count_tokens_take_le _ _) (count_tokens_drop_le _ _)

theorem sumF_nil (f : α → Nat) : sumF f [] = 0 := rfl

theorem sumF_cons (f : α → Nat) (x : α) (l : List α) :
    sumF f (x :: l) = f x + sumF f l := by simp [sumF]

theorem sumF_append (f : α → Nat) (l₁ l₂ : List α) :
    sumF f (l₁ ++ l₂) = sumF f l₁ + sumF f l₂ := by simp [sumF]

theorem fitLoop_spec (f : α → Nat) (b : Nat) :
    ∀ (l : List α) (total : Nat), total ≤ b →
      ∃ k, k ≤ l.length ∧ fitLoop f b l total = l.take k ∧
        total + sumF f (l.take k) ≤ b ∧
        (k = l.length ∨ ∃ x, l.drop k = x :: l.drop (k + 1) ∧
          b < total + sumF f (l.take k) + f x)
  | [], total, htot => ⟨0, by simp [fitLoop, sumF, htot]⟩
  | x :: rest, total, htot => by
    by_cases hx : total + f x ≤ b
    · obtain ⟨k, hk, heq, hsum, hcond⟩ := fitLoop_spec f b rest (total + f x) hx
      refine ⟨k + 1, by simpa using Nat.succ_le_succ hk, ?_, ?_, ?_⟩
      · simp [fitLoop, hx, heq]
      · simp only [List.take_succ_cons, sumF_cons]
        omega
      · rcases hcond with h | ⟨y, hd, hb⟩
        · exact Or.inl (by simp [h])
        · refine Or.inr ⟨y, by simpa using hd, ?_⟩
          simp only [List.take_succ_cons, sumF_cons]
          omega
    · refine ⟨0, by simp, by simp [fitLoop, hx], by simp [sumF]; omega,
        Or.inr ⟨x, by simp, ?_⟩⟩
      simp [sumF]
      omega

theorem revFit_spec (f : α → Nat) (b : Nat) (l : List α) :
    ∀ (total : Nat), total ≤ b →
      ∃ k, k ≤ l.length ∧ (fitLoop f b l.reverse total).reverse = l.drop k ∧
        total + sumF f (l.drop k) ≤ b ∧
        ∀ j, j < k → b < total + sumF f (l.drop j) := by
  induction l using List.reverseRecOn with
  | nil => exact fun total htot => ⟨0, by simp [fitLoop, sumF, htot]⟩
  | append_singleton l x ih =>
    intro total htot
    have hrev : (l ++ [x]).reverse = x :: l.reverse := by simp
    by_cases hx : total + f x ≤ b
    · obtain ⟨k, hk, heq, hsum, hmax⟩ := ih (total + f x) hx
      refine ⟨k, by simp; omega, ?_, ?_, ?_⟩
      · rw [hrev]
        simp only [fitLoop, if_pos hx, List.reverse_cons, heq]
        rw [List.drop_append_of_le_length hk]
      · rw [List.drop_append_of_le_length hk, sumF_append, sumF_cons, sumF_nil]
        omega
      · intro j hj
        have hjl : j ≤ l.length := le_trans (le_of_lt hj) hk
        rw [List.drop_append_of_le_length hjl, sumF_append, sumF_cons, sumF_nil]
        have := hmax j hj
        omega
    · refine ⟨l.length + 1, by simp, ?_, ?_, ?_⟩
      · rw [hrev]
        simp [fitLoop, hx]
      · have : (l ++ [x]).drop (l.length + 1) = [] := by
          apply List.drop_eq_nil_of_le
          simp
        rw [this, sumF_nil]
        omega
      · intro j hj
        have hjl : j ≤ l.length := by omega
        rw [List.drop_append_of_le_length hjl, sumF_append, sumF_cons, sumF_nil]
        omega

theorem retrLoop_spec (b : Nat) :
    ∀ (l : List RetrievalChunk) (total : Nat), total ≤ b →
      ∃ k, k ≤ l.length ∧ total + sumF RetrievalChunk.tokens (l.take k) ≤ b ∧
        ((k = l.length ∧ retrLoop b l total = l.take k) ∨
         ∃ c, l.drop k = c :: l.drop (k + 1) ∧
           b < total + sumF RetrievalChunk.tokens (l.take k) + c.tokens ∧
           ((50 < b - (total + sumF RetrievalChunk.tokens (l.take k)) ∧
             retrLoop b l total = l.take k ++
               [partChunk c (b - (total + sumF RetrievalChunk.tokens (l.take k)))]) ∨
            (b - (total + sumF RetrievalChunk.tokens (l.take k)) ≤ 50 ∧
             retrLoop b l total = l.take k)))
  | [], total, htot => ⟨0, by simp [retrLoop, sumF, htot]⟩
  | c :: rest, total, htot => by
    by_cases hc : total + c.tokens ≤ b
    · obtain ⟨k, hk, hsum, hcond⟩ := retrLoop_spec b rest (total + c.tokens) hc
      refine ⟨k + 1, by simpa using Nat.succ_le_succ hk, ?_, ?_⟩
      · simp only [List.take_succ_cons, sumF_cons]
        omega
      · rcases hcond with ⟨hlen, heq⟩ | ⟨d, hd, hb, hrest⟩
        · exact Or.inl ⟨by simp [hlen], by simp [retrLoop, hc, heq]⟩
        · refine Or.inr ⟨d, by simpa using hd, ?_, ?_⟩
          · simp only [List.take_succ_cons, sumF_cons]
            omega
          · have harith : b - (total + sumF RetrievalChunk.tokens ((c :: rest).take (k + 1))) =
                b - (total + c.tokens + sumF RetrievalChunk.tokens (rest.take k)) := by
              simp only [List.take_succ_cons, sumF_cons]
              omega
            rcases hrest with ⟨h50, heq⟩ | ⟨h50, heq⟩
            · refine Or.inl ⟨by rw [harith]; omega, ?_⟩
              have harith2 : b - (total + c.tokens +
                    sumF RetrievalChunk.tokens (rest.take k)) =
                  b - (total + sumF RetrievalChunk.tokens (c :: rest.take k)) := by
                rw [sumF_cons]; omega
              simp only [retrLoop, if_pos hc, heq, harith2, List.take_succ_cons,
                List.cons_append]
            · refine Or.inr ⟨by rw [harith]; omega, ?_⟩
              simp [retrLoop, hc, heq]
    · refine ⟨0, by simp, by simp [sumF]; omega, Or.inr ⟨c, by simp, ?_, ?_⟩⟩
      · simp [sumF]
        omega
      · simp only [List.take_nil, List.take_zero, sumF_nil, Nat.add_zero]
        by_cases h50 : 50 < b - total
        · exact Or.inl ⟨h50, by simp [retrLoop, hc, h50]⟩
        · exact Or.inr ⟨by omega, by simp [retrLoop, hc, h50]⟩

theorem bsearchTrunc_inv :
    ∀ (fuel : Nat) (t : List Char) (b l r : Nat) (best : List Char),
      r - l ≤ fuel →
      (∃ n, best = t.take n) →
      (best = [] ∨ (count_tokens best : Int) ≤ (b : Int) - 3) →
      (∃ n, bsearchTrunc t b l r best = t.take n) ∧
        (bsearchTrunc t b l r best = [] ∨
          (count_tokens (bsearchTrunc t b l r best) : Int) ≤ (b : Int) - 3) := by
  intro fuel
  induction fuel with
  | zero =>
    intro t b l r best hf hbest hcnt
    have hlr : ¬ l < r := by omega
    rw [bsearchTrunc, dif_neg hlr]
    exact ⟨hbest, hcnt⟩
  | succ fuel ih =>
    intro t b l r best hf hbest hcnt
    by_cases hlr : l < r
    · by_cases hcond :
        (count_tokens (t.take ((l + r + 1) / 2)) : Int) ≤ (b : Int) - 3
      · have hstep : bsearchTrunc t b l r best =
            bsearchTrunc t b ((l + r + 1) / 2) r (t.take ((l + r + 1) / 2)) := by
          rw [bsearchTrunc]
          simp [hlr, hcond]
        rw [hstep]
        exact ih t b ((l + r + 1) / 2) r (t.take ((l + r + 1) / 2))
          (by omega) ⟨(l + r + 1) / 2, rfl⟩ (Or.inr hcond)
      · have hstep : bsearchTrunc t b l r best =
            bsearchTrunc t b l ((l + r + 1) / 2 - 1) best := by
          rw [bsearchTrunc]
          simp [hlr, hcond]
        rw [hstep]
        exact ih t b l ((l + r + 1) / 2 - 1) best (by omega) hbest hcnt
    · rw [bsearchTrunc, dif_neg hlr]
      exact ⟨hbest, hcnt⟩

theorem bsearchTrunc_spec (t : List Char) (b : Nat) :
    (∃ n, bsearchTrunc t b 0 t.length [] = t.take n) ∧
      (bsearchTrunc t b 0 t.length [] = [] ∨
        (count_tokens (bsearchTrunc t b 0 t.length []) : Int) ≤ (b : Int) - 3) :=
  bsearchTrunc_inv t.length t b 0 t.length [] (by omega)
    ⟨0, by simp⟩ (Or.inl rfl)

theorem truncate_to_budget_eq_of_over (t : List Char) (b : Nat)
    (h : ¬ count_tokens t ≤ b) :
    truncate_to_budget t b =
      (if pyRFind (pyStrip (bsearchTrunc t b 0 t.length [])) ' ' * 5 >
          ((pyStrip (bsearchTrunc t b 0 t.length [])).length : Int) * 4 then
        (pyStrip (bsearchTrunc t b 0 t.length [])).take
          (pyRFind (pyStrip (bsearchTrunc t b 0 t.length [])) ' ').toNat
      else pyStrip (bsearchTrunc t b 0 t.length [])) ++ ['.', '.', '.'] := by
  simp only [truncate_to_budget]
  rw [if_neg h]

theorem truncate_to_budget_shape (t : List Char) (b : Nat)
    (h : b < count_tokens t) :
    ∃ n m, truncate_to_budget t b =
      (pyStrip (t.take n)).take m ++ ['.', '.', '.'] := by
  obtain ⟨⟨n, hn⟩, _⟩ := bsearchTrunc_spec t b
  rw [truncate_to_budget_eq_of_over t b (by omega), hn]
  by_cases hcond : pyRFind (pyStrip (t.take n)) ' ' * 5 >
      ((pyStrip (t.take n)).length : Int) * 4
  · exact ⟨n, (pyRFind (pyStrip (t.take n)) ' ').toNat, by rw [if_pos hcond]⟩
  · exact ⟨n, (pyStrip (t.take n)).length, by rw [if_neg hcond, List.take_length]⟩

theorem pyCollapse_marker_length : (pyCollapse ['.', '.', '.']).length = 3 := by
  decide

theorem count_tokens_snap_append_marker (y : List Char) :
    count_tokens (y ++ ['.', '.', '.']) ≤
      (pyCollapse y).length / CHARS_PER_TOKEN + 1 := by
  have hne : y ++ ['.', '.', '.'] ≠ [] := by simp
  have hcl := pyCollapse_length_append_le y ['.', '.', '.']
  rw [pyCollapse_marker_length] at hcl
  unfold count_tokens
  rw [if_neg hne]
  have : (pyCollapse (y ++ ['.', '.', '.'])).length / CHARS_PER_TOKEN ≤
      ((pyCollapse y).length + 4) / CHARS_PER_TOKEN := Nat.div_le_div_right hcl
  unfold CHARS_PER_TOKEN at *
  omega

theorem truncate_to_budget_count_le (t : List Char) (b : Nat) (hb : 1 ≤ b) :
    count_tokens (truncate_to_budget t b) ≤ b := by
  by_cases hfit : count_tokens t ≤ b
  · rw [truncate_to_budget, if_pos hfit]
    exact hfit
  · obtain ⟨⟨n, hn⟩, hcnt⟩ := bsearchTrunc_spec t b
    rw [truncate_to_budget_eq_of_over t b hfit]
    set best := bsearchTrunc t b 0 t.length [] with hbest
    set y := (if pyRFind (pyStrip best) ' ' * 5 > ((pyStrip best).length : Int) * 4 then
        (pyStrip best).take (pyRFind (pyStrip best) ' ').toNat
      else pyStrip best) with hy
    have hyt : ∃ m, y = (pyStrip best).take m := by
      rw [hy]
      by_cases hcond : pyRFind (pyStrip best) ' ' * 5 > ((pyStrip best).length : Int) * 4
      · exact ⟨(pyRFind (pyStrip best) ' ').toNat, by rw [if_pos hcond]⟩
      · exact ⟨(pyStrip best).length, by rw [if_neg hcond, List.take_length]⟩
    obtain ⟨m, hm⟩ := hyt
    have hylb : count_tokens y ≤ count_tokens best := by
      rw [hm]
      exact le_trans (count_tokens_take_le _ _) (count_tokens_pyStrip_le _)
    have hmark := count_tokens_snap_append_marker y
    have hcl4 : (pyCollapse y).length / CHARS_PER_TOKEN ≤ count_tokens y := by
      unfold count_tokens
      by_cases hyn : y = []
      · simp [hyn, pyCollapse, pySplit, pySplitAux, List.intercalate]
      · rw [if_neg hyn]
        omega
    rcases hcnt with hbe | hble
    · have hynil : y = [] := by
        rw [hm, hbe]
        simp [pyStrip]
      rw [hynil]
      have hone : count_tokens (([] : List Char) ++ ['.', '.', '.']) = 1 := by decide
      omega
    · have hbn : count_tokens best + 3 ≤ b := by omega
      omega

theorem pyStrip_length_le (t : List Char) : (pyStrip t).length ≤ t.length := by
  obtain ⟨a, b, h⟩ := pyStrip_eq_drop_take t
  rw [h]
  calc ((t.drop a).take b).length ≤ (t.drop a).length := by
        rw [List.length_take]; omega
    _ ≤ t.length := by rw [List.length_drop]; omega

theorem goalStartPart_length_le (g : List Char) (b : Nat) :
    (goalStartPart g b).length ≤ b * CHARS_PER_TOKEN * 2 / 5 := by
  have hbase : (pyStrip (g.take (b * CHARS_PER_TOKEN * 2 / 5))).length ≤
      b * CHARS_PER_TOKEN * 2 / 5 := by
    calc (pyStrip (g.take (b * CHARS_PER_TOKEN * 2 / 5))).length ≤
        (g.take (b * CHARS_PER_TOKEN * 2 / 5)).length := pyStrip_length_le _
      _ ≤ b * CHARS_PER_TOKEN * 2 / 5 := by rw [List.length_take]; omega
  unfold goalStartPart
  by_cases hcond : pyRFind (pyStrip (g.take (b * CHARS_PER_TOKEN * 2 / 5))) '.' * 10 >
      ((b * CHARS_PER_TOKEN * 2 / 5 : Nat) : Int) * 7
  · rw [if_pos hcond]
    calc ((pyStrip (g.take (b * CHARS_PER_TOKEN * 2 / 5))).take
          ((pyRFind (pyStrip (g.take (b * CHARS_PER_TOKEN * 2 / 5))) '.').toNat + 1)).length ≤
        (pyStrip (g.take (b * CHARS_PER_TOKEN * 2 / 5))).length := by
          rw [List.length_take]; omega
      _ ≤ b * CHARS_PER_TOKEN * 2 / 5 := hbase
  · rw [if_neg hcond]
    exact hbase

theorem goalEndPart_length_le (g : List Char) (b : Nat) (hb : 1 ≤ b) :
    (goalEndPart g b).length ≤ b * CHARS_PER_TOKEN * 2 / 5 := by
  have hec : b * CHARS_PER_TOKEN * 2 / 5 ≠ 0 := by
    unfold CHARS_PER_TOKEN
    omega
  have hslice : (pySliceLast g (b * CHARS_PER_TOKEN * 2 / 5)).length ≤
      b * CHARS_PER_TOKEN * 2 / 5 := by
    unfold pySliceLast
    rw [if_neg hec, List.length_drop]
    omega
  have hbase : (pyStrip (pySliceLast g (b * CHARS_PER_TOKEN * 2 / 5))).length ≤
      b * CHARS_PER_TOKEN * 2 / 5 :=
    le_trans (pyStrip_length_le _) hslice
  unfold goalEndPart
  by_cases hcond : pyFind (pyStrip (pySliceLast g (b * CHARS_PER_TOKEN * 2 / 5))) '.' ≠ -1 ∧
      pyFind (pyStrip (pySliceLast g (b * CHARS_PER_TOKEN * 2 / 5))) '.' * 10 <
        ((b * CHARS_PER_TOKEN * 2 / 5 : Nat) : Int) * 3
  · rw [if_pos hcond]
    calc (pyStrip ((pyStrip (pySliceLast g (b * CHARS_PER_TOKEN * 2 / 5))).drop
          ((pyFind (pyStrip (pySliceLast g (b * CHARS_PER_TOKEN * 2 / 5))) '.').toNat + 1))).length ≤
        ((pyStrip (pySliceLast g (b * CHARS_PER_TOKEN * 2 / 5))).drop
          ((pyFind (pyStrip (pySliceLast g (b * CHARS_PER_TOKEN * 2 / 5))) '.').toNat + 1)).length :=
          pyStrip_length_le _
      _ ≤ (pyStrip (pySliceLast g (b * CHARS_PER_TOKEN * 2 / 5))).length := by
          rw [List.length_drop]; omega
      _ ≤ b * CHARS_PER_TOKEN * 2 / 5 := hbase
  · rw [if_neg hcond]
    exact hbase

theorem pyCollapse_goalGap_length : (pyCollapse goalGap).length = 5 := by decide

theorem truncate_goal_parts_count_le (g : List Char) (b : Nat) (hb : 3 ≤ b) :
    count_tokens (goalStartPart g b ++ goalGap ++ goalEndPart g b) ≤ b := by
  have hs : (pyCollapse (goalStartPart g b)).length ≤ b * CHARS_PER_TOKEN * 2 / 5 :=
    le_trans (pyCollapse_length_le _) (goalStartPart_length_le g b)
  have he : (pyCollapse (goalEndPart g b)).length ≤ b * CHARS_PER_TOKEN * 2 / 5 :=
    le_trans (pyCollapse_length_le _) (goalEndPart_length_le g b (by omega))
  have h1 := pyCollapse_length_append_le (goalStartPart g b) goalGap
  have h2 := pyCollapse_length_append_le (goalStartPart g b ++ goalGap) (goalEndPart g b)
  rw [pyCollapse_goalGap_length] at h1
  have hne : goalStartPart g b ++ goalGap ++ goalEndPart g b ≠ [] := by
    simp [goalGap]
  unfold count_tokens
  rw [if_neg hne]
  unfold CHARS_PER_TOKEN at *
  omega

theorem truncate_goal_count_le (g : List Char) (b : Nat) (hb : 3 ≤ b) :
    count_tokens (truncate_goal g b) ≤ b := by
  by_cases h : count_tokens g ≤ b
  · rw [truncate_goal, if_pos h]
    exact h
  · rw [truncate_goal, if_neg h]
    exact truncate_goal_parts_count_le g b hb

theorem applyLoop_instructions_eq (cfg : BudgetConfig) (ctx : ContextParts)
    (mi : List (List Char)) (touts : List ToolOutput) :
    ∀ (plan : List (String × Nat × String)) (tr : ContextParts)
      (det : List (String × String)), tr.instructions = ctx.instructions →
      (applyLoop cfg ctx mi touts plan tr det).1.instructions = ctx.instructions
  | [], _, _, htr => htr
  | (s, amt, strat) :: plan, tr, det, htr => by
    simp only [applyLoop]
    split_ifs <;>
      exact applyLoop_instructions_eq cfg ctx mi touts plan _ _
        (by simp [truncate_instructions, htr])

theorem applyLoop_goal_eq (cfg : BudgetConfig) (ctx : ContextParts)
    (mi : List (List Char)) (touts : List ToolOutput) :
    ∀ (plan : List (String × Nat × String)) (tr : ContextParts)
      (det : List (String × String)),
      (applyLoop cfg ctx mi touts plan tr det).1.goal =
        if plan.any (fun e => e.1 == "goal") then
          truncate_goal ctx.goal (get_section_budget cfg "goal")
        else tr.goal
  | [], tr, det => by simp [applyLoop]
  | (s, amt, strat) :: plan, tr, det => by
    by_cases hs : s = "goal"
    · subst hs
      have hni : ("goal" : String) ≠ "instructions" := by decide
      simp only [applyLoop]
      rw [if_neg hni, if_pos trivial]
      rw [applyLoop_goal_eq cfg ctx mi touts plan _ _]
      by_cases hp : plan.any (fun e => e.1 == "goal") <;>
        simp [hp, List.any_cons]
    · have hb : (s == "goal") = false := beq_eq_false_iff_ne.mpr hs
      simp only [applyLoop, List.any_cons, hb, Bool.false_or]
      split_ifs <;>
        · rw [applyLoop_goal_eq cfg ctx mi touts plan _ _]
          simp_all

theorem applyLoop_retrieval_eq (cfg : BudgetConfig) (ctx : ContextParts)
    (mi : List (List Char)) (touts : List ToolOutput) :
    ∀ (plan : List (String × Nat × String)) (tr : ContextParts)
      (det : List (String × String)),
      (applyLoop cfg ctx mi touts plan tr det).1.retrieval =
        if plan.any (fun e => e.1 == "retrieval") then
          (if get_section_budget cfg "retrieval" < count_tokens ctx.retrieval then
            truncate_to_budget ctx.retrieval (get_section_budget cfg "retrieval")
          else ctx.retrieval)
        else tr.retrieval
  | [], tr, det => by simp [applyLoop]
  | (s, amt, strat) :: plan, tr, det => by
    by_cases hs : s = "retrieval"
    · subst hs
      have hni : ("retrieval" : String) ≠ "instructions" := by decide
      have hng : ("retrieval" : String) ≠ "goal" := by decide
      have hnm : ("retrieval" : String) ≠ "memory" := by decide
      simp only [applyLoop]
      rw [if_neg hni, if_neg hng, if_neg hnm, if_pos trivial]
      by_cases hover : get_section_budget cfg "retrieval" < count_tokens ctx.retrieval
      · rw [if_pos hover, applyLoop_retrieval_eq cfg ctx mi touts plan _ _]
        by_cases hp : plan.any (fun e => e.1 == "retrieval") <;>
          simp [hp, List.any_cons, hover]
      · rw [if_neg hover, applyLoop_retrieval_eq cfg ctx mi touts plan _ _]
        by_cases hp : plan.any (fun e => e.1 == "retrieval") <;>
          simp [hp, List.any_cons, hover]
    · have hb : (s == "retrieval") = false := beq_eq_false_iff_ne.mpr hs
      simp only [applyLoop, List.any_cons, hb, Bool.false_or]
      split_ifs <;>
        · rw [applyLoop_retrieval_eq cfg ctx mi touts plan _ _]
          simp_all

theorem validate_context_valid_iff (cfg : BudgetConfig) (ctx : ContextParts) :
    (validate_context cfg ctx).1 = true ↔
      (count_tokens ctx.instructions ≤ cfg.instructions ∧
       count_tokens ctx.goal ≤ cfg.goal ∧
       count_tokens ctx.memory ≤ cfg.memory ∧
       count_tokens ctx.retrieval ≤ cfg.retrieval ∧
       count_tokens ctx.tool_outputs ≤ cfg.tool_outputs) := by
  simp only [validate_context]
  split_ifs <;> simp_all

theorem validate_context_lookup_goal (cfg : BudgetConfig) (ctx : ContextParts) :
    ((validate_context cfg ctx).2.2.lookup "goal").isSome = true ↔
      cfg.goal < count_tokens ctx.goal := by
  simp only [validate_context]
  split_ifs <;> simp_all [List.lookup]

theorem validate_context_lookup_retrieval (cfg : BudgetConfig) (ctx : ContextParts) :
    ((validate_context cfg ctx).2.2.lookup "retrieval").isSome = true ↔
      cfg.retrieval < count_tokens ctx.retrieval := by
  simp only [validate_context]
  split_ifs <;> simp_all [List.lookup]

theorem prioritize_sections_any_goal (o : List (String × Nat)) :
    (prioritize_sections o).any (fun e => e.1 == "goal") = (o.lookup "goal").isSome := by
  unfold prioritize_sections priority_order
  cases h1 : o.lookup "memory" <;> cases h2 : o.lookup "tool_outputs" <;>
    cases h3 : o.lookup "retrieval" <;> cases h4 : o.lookup "goal" <;>
    cases h5 : o.lookup "instructions" <;>
    simp [h1, h2, h3, h4, h5, List.filterMap]

theorem prioritize_sections_any_retrieval (o : List (String × Nat)) :
    (prioritize_sections o).any (fun e => e.1 == "retrieval") =
      (o.lookup "retrieval").isSome := by
  unfold prioritize_sections priority_order
  cases h1 : o.lookup "memory" <;> cases h2 : o.lookup "tool_outputs" <;>
    cases h3 : o.lookup "retrieval" <;> cases h4 : o.lookup "goal" <;>
    cases h5 : o.lookup "instructions" <;>
    simp [h1, h2, h3, h4, h5, List.filterMap]

theorem truncate_to_budget_pos_of_over (t : List Char) (b : Nat)
    (h : ¬ count_tokens t ≤ b) :
    1 ≤ count_tokens (truncate_to_budget t b) := by
  rw [truncate_to_budget_eq_of_over t b h]
  exact count_tokens_pos _ (by simp)

/-- **C10**: in character-approximation fallback mode, `count_tokens` returns
`0` for the empty string and at least `1` for every non-empty string,
including whitespace-only strings (the count is the maximum of `1` and the
whitespace-collapsed character count divided by 4); consequently no
non-empty section content can ever satisfy a zero-token capacity. -/
theorem count_tokens_fallback_positivity :
    count_tokens [] = 0 ∧
    (∀ t : List Char, t ≠ [] →
      1 ≤ count_tokens t ∧
      count_tokens t = max 1 ((pyCollapse t).length / CHARS_PER_TOKEN)) ∧
    (∀ t : List Char, t ≠ [] → ¬ count_tokens t ≤ 0) := by
  refine ⟨by decide, fun t ht => ⟨count_tokens_pos t ht, ?_⟩, fun t ht => ?_⟩
  · rw [count_tokens, if_neg ht]
  · have := count_tokens_pos t ht
    omega

/-- Witness for **C10** at the whitespace-only string `" "`. -/
theorem count_tokens_fallback_positivity_witness :
    1 ≤ count_tokens [' '] ∧ ¬ count_tokens [' '] ≤ 0 :=
  ⟨(count_tokens_fallback_positivity.2.1 [' '] (by decide)).1,
    count_tokens_fallback_positivity.2.2 [' '] (by decide)⟩

/-- **C3**: for every instructions text and every budget (including budgets
smaller than the text's token count), `truncate_instructions` returns the
input unchanged — an over-budget instructions section only raises a logged
error — and `assemble` always returns the instructions section exactly as
gathered. -/
theorem truncate_instructions_never_truncates :
    (∀ (s : List Char) (b : Nat), truncate_instructions s b = s) ∧
    (∀ (cfg : BudgetConfig) (raw : ContextParts) (mi : List (List Char))
      (touts : List ToolOutput),
      (assemble cfg raw mi touts).context_parts.instructions = raw.instructions) := by
  refine ⟨fun s b => rfl, fun cfg raw mi touts => ?_⟩
  by_cases hv : (validate_context cfg raw).1 = true
  · simp [assemble, hv]
  · have h : (assemble cfg raw mi touts).context_parts =
        (apply_truncation cfg raw mi touts (validate_context cfg raw).2.2).1 := by
      simp [assemble, hv]
    rw [h, apply_truncation]
    exact applyLoop_instructions_eq cfg raw mi touts _ raw [] rfl

/-- Counterexample to **C9** as stated: at budget `0` (with the five-token
text `"hello"`), `truncate_to_budget` returns the bare `"..."` marker, which
measures one token, exceeding the budget. -/
theorem truncate_to_budget_zero_budget_cex :
    ¬ count_tokens (truncate_to_budget "hello".toList 0) ≤ 0 := by
  have h := truncate_to_budget_pos_of_over "hello".toList 0 (by decide)
  omega

/-- **C9** (amended: for budgets ≥ 1; at budget 0 the appended marker alone
measures one token): `truncate_to_budget` returns a text measuring at most
the budget; a fitting text is returned unchanged, and an over-budget text is
reduced to a stripped prefix — found by binary search over prefix lengths
and snapped back to a word boundary near the end of the candidate — followed
by the visible `"..."` marker, for which 3 tokens of the budget are
reserved. -/
theorem truncate_to_budget_within_budget (t : List Char) (b : Nat) (hb : 1 ≤ b) :
    count_tokens (truncate_to_budget t b) ≤ b ∧
    (count_tokens t ≤ b → truncate_to_budget t b = t) ∧
    (b < count_tokens t →
      ∃ n m, truncate_to_budget t b =
        (pyStrip (t.take n)).take m ++ ['.', '.', '.']) :=
  ⟨truncate_to_budget_count_le t b hb,
   fun h => by rw [truncate_to_budget, if_pos h],
   fun h => truncate_to_budget_shape t b h⟩

/-- Witness for **C9** at the 5-token text `"hello world hello world"` and
budget 4. -/
theorem truncate_to_budget_within_budget_witness :
    count_tokens (truncate_to_budget "hello world hello world".toList 4) ≤ 4 ∧
    (count_tokens "hello world hello world".toList ≤ 4 →
      truncate_to_budget "hello world hello world".toList 4 =
        "hello world hello world".toList) ∧
    (4 < count_tokens "hello world hello world".toList →
      ∃ n m, truncate_to_budget "hello world hello world".toList 4 =
        (pyStrip ("hello world hello world".toList.take n)).take m ++
          ['.', '.', '.']) :=
  truncate_to_budget_within_budget "hello world hello world".toList 4 (by decide)

/-- Counterexample to **C8** as stated: with goal budget `2` and a 12-character
(3-token) goal, the truncated goal still measures 3 tokens — the fixed
7-character gap marker cannot be absorbed by so small a budget. -/
theorem truncate_goal_small_budget_cex :
    2 < count_tokens "abcdefghijkl".toList ∧
    2 < count_tokens (truncate_goal "abcdefghijkl".toList 2) := by decide

/-- **C8** (amended: for goal budgets ≥ 3; at budgets ≤ 2 the gap marker
alone can exceed the margin): for every goal text whose token count exceeds
the budget, `truncate_goal` returns the retained prefix (at most 40% of the
character target `budget * CHARS_PER_TOKEN`) and retained suffix (at most
40%) joined by the visible gap marker `" [...] "`, and the result measures
at most the goal budget. -/
theorem truncate_goal_head_tail_within_budget (g : List Char) (b : Nat)
    (hb : 3 ≤ b) (hover : b < count_tokens g) :
    truncate_goal g b = goalStartPart g b ++ goalGap ++ goalEndPart g b ∧
    (goalStartPart g b).length ≤ b * CHARS_PER_TOKEN * 2 / 5 ∧
    (goalEndPart g b).length ≤ b * CHARS_PER_TOKEN * 2 / 5 ∧
    count_tokens (truncate_goal g b) ≤ b :=
  ⟨by rw [truncate_goal, if_neg (by omega)],
   goalStartPart_length_le g b, goalEndPart_length_le g b (by omega),
   truncate_goal_count_le g b hb⟩

/-- Witness for **C8** at a 4-token goal against budget 3. -/
theorem truncate_goal_head_tail_within_budget_witness :
    truncate_goal "abcdefghijklmnop".toList 3 =
      goalStartPart "abcdefghijklmnop".toList 3 ++ goalGap ++
        goalEndPart "abcdefghijklmnop".toList 3 ∧
    (goalStartPart "abcdefghijklmnop".toList 3).length ≤ 3 * CHARS_PER_TOKEN * 2 / 5 ∧
    (goalEndPart "abcdefghijklmnop".toList 3).length ≤ 3 * CHARS_PER_TOKEN * 2 / 5 ∧
    count_tokens (truncate_goal "abcdefghijklmnop".toList 3) ≤ 3 :=
  truncate_goal_head_tail_within_budget "abcdefghijklmnop".toList 3
    (by decide) (by decide)

/-- **C4**: for every list of memory items (oldest first) and every budget,
`truncate_memory` keeps exactly the longest suffix (most recent run) whose
cumulative per-item token counts fit the budget, and returns the kept items
joined in original chronological order; no interior item is dropped while a
later item is kept (the kept items are a `drop`). -/
theorem truncate_memory_keeps_longest_recent_suffix
    (memory_items : List (List Char)) (budget : Nat) :
    ∃ k, k ≤ memory_items.length ∧
      truncate_memory memory_items budget =
        List.intercalate ['\n'] (memory_items.drop k) ∧
      sumF count_tokens (memory_items.drop k) ≤ budget ∧
      ∀ j, j < k → budget < sumF count_tokens (memory_items.drop j) := by
  obtain ⟨k, hk, heq, hsum, hmax⟩ :=
    revFit_spec count_tokens budget memory_items 0 (Nat.zero_le _)
  refine ⟨k, hk, by rw [truncate_memory, heq], by omega, fun j hj => ?_⟩
  have := hmax j hj
  omega

/-- **C5**: `truncate_retrieval` selects chunks in descending relevance-score
order, greedily accepting whole chunks while cumulative tokens stay within
budget; at the first chunk that does not fit, if more than 50 tokens of
budget remain, a prefix of that chunk sized to the remaining budget is
included as the final entry and no further chunks are considered; accepted
chunks are never emitted out of score order, and a partial chunk appears
only last and only when a full chunk was rejected for space. -/
theorem truncate_retrieval_greedy_by_score (chunks : List RetrievalChunk)
    (budget : Nat) :
    truncate_retrieval chunks budget =
      (if chunks = [] then []
       else formatChunks (retrLoop budget (sortChunks chunks) 0)) ∧
    List.Pairwise chunkBefore (sortChunks chunks) ∧
    List.Pairwise chunkBefore (retrLoop budget (sortChunks chunks) 0) ∧
    ∃ k, k ≤ (sortChunks chunks).length ∧
      sumF RetrievalChunk.tokens ((sortChunks chunks).take k) ≤ budget ∧
      ((k = (sortChunks chunks).length ∧
        retrLoop budget (sortChunks chunks) 0 = (sortChunks chunks).take k) ∨
       ∃ c, (sortChunks chunks).drop k = c :: (sortChunks chunks).drop (k + 1) ∧
         budget < sumF RetrievalChunk.tokens ((sortChunks chunks).take k) + c.tokens ∧
         ((50 < budget - sumF RetrievalChunk.tokens ((sortChunks chunks).take k) ∧
           retrLoop budget (sortChunks chunks) 0 = (sortChunks chunks).take k ++
             [partChunk c (budget -
               sumF RetrievalChunk.tokens ((sortChunks chunks).take k))]) ∨
          (budget - sumF RetrievalChunk.tokens ((sortChunks chunks).take k) ≤ 50 ∧
           retrLoop budget (sortChunks chunks) 0 = (sortChunks chunks).take k))) := by
  obtain ⟨k, hk, hsum, hcond⟩ :=
    retrLoop_spec budget (sortChunks chunks) 0 (Nat.zero_le _)
  simp only [Nat.zero_add] at hsum hcond
  have hsorted : List.Pairwise chunkBefore (sortChunks chunks) :=
    List.sorted_insertionSort chunkBefore chunks
  have hselp : List.Pairwise chunkBefore (retrLoop budget (sortChunks chunks) 0) := by
    rcases hcond with ⟨hlen, heq⟩ | ⟨c, hd, hb2, hrest⟩
    · rw [heq]
      exact hsorted.sublist (List.take_sublist _ _)
    · have hcross : ∀ a ∈ (sortChunks chunks).take k,
          ∀ b ∈ (sortChunks chunks).drop k, chunkBefore a b := by
        have h2 : ((sortChunks chunks).take k ++
            (sortChunks chunks).drop k).Pairwise chunkBefore := by
          rw [List.take_append_drop]
          exact hsorted
        exact (List.pairwise_append.mp h2).2.2
      have hcmem : c ∈ (sortChunks chunks).drop k := by
        rw [hd]
        exact List.mem_cons_self _ _
      rcases hrest with ⟨h50, heq⟩ | ⟨h50, heq⟩
      · rw [heq, List.pairwise_append]
        refine ⟨hsorted.sublist (List.take_sublist _ _),
          List.pairwise_singleton _ _, ?_⟩
        intro a ha b hbmem
        simp only [List.mem_singleton] at hbmem
        subst hbmem
        have := hcross a ha c hcmem
        simpa [chunkBefore, partChunk] using this
      · rw [heq]
        exact hsorted.sublist (List.take_sublist _ _)
  exact ⟨rfl, hsorted, hselp, k, hk, hsum, hcond⟩

/-- **C6**: `truncate_tool_outputs` orders records success-first (all
successful records before all failed ones), then newest-first within the
same success flag, and greedily accepts whole records in that order until
the next record would overflow the budget, with no partial splitting; in
particular a failed record is kept only if every successful record is kept,
regardless of relative timestamps. -/
theorem truncate_tool_outputs_success_then_recent (outputs : List ToolOutput)
    (budget : Nat) :
    truncate_tool_outputs outputs budget =
      (if outputs = [] then []
       else formatTools (fitLoop ToolOutput.tokens budget (sortTools outputs) 0)) ∧
    List.Pairwise toolBefore (sortTools outputs) ∧
    List.Pairwise (fun a b => ¬(a.success = false ∧ b.success = true))
      (sortTools outputs) ∧
    (∃ k, k ≤ (sortTools outputs).length ∧
      fitLoop ToolOutput.tokens budget (sortTools outputs) 0 =
        (sortTools outputs).take k ∧
      sumF ToolOutput.tokens ((sortTools outputs).take k) ≤ budget ∧
      (k = (sortTools outputs).length ∨
        ∃ x, (sortTools outputs).drop k = x :: (sortTools outputs).drop (k + 1) ∧
          budget < sumF ToolOutput.tokens ((sortTools outputs).take k) + x.tokens)) ∧
    ∀ fr ∈ fitLoop ToolOutput.tokens budget (sortTools outputs) 0,
      fr.success = false → ∀ o ∈ outputs, o.success = true →
        o ∈ fitLoop ToolOutput.tokens budget (sortTools outputs) 0 := by
  obtain ⟨k, hk, heq, hsum, hcond⟩ :=
    fitLoop_spec ToolOutput.tokens budget (sortTools outputs) 0 (Nat.zero_le _)
  simp only [Nat.zero_add] at hsum hcond
  have hsorted : List.Pairwise toolBefore (sortTools outputs) :=
    List.sorted_insertionSort toolBefore outputs
  have hsf : List.Pairwise (fun a b => ¬(a.success = false ∧ b.success = true))
      (sortTools outputs) := by
    refine hsorted.imp ?_
    intro a b hab ⟨ha, hb⟩
    rcases hab with hlt | ⟨heqs, _⟩
    · rw [ha, hb] at hlt
      exact absurd hlt (by decide)
    · rw [ha, hb] at heqs
      exact absurd heqs (by decide)
  refine ⟨rfl, hsorted, hsf, ⟨k, hk, heq, hsum, hcond⟩, ?_⟩
  intro fr hfr hfrs o ho hos
  by_contra hno
  have homem : o ∈ sortTools outputs :=
    ((List.perm_insertionSort toolBefore outputs).mem_iff).mpr ho
  have hsplit : o ∈ (sortTools outputs).take k ++ (sortTools outputs).drop k := by
    rw [List.take_append_drop]
    exact homem
  rcases List.mem_append.mp hsplit with h1 | h2
  · rw [heq] at hno
    exact hno h1
  · have hfrtake : fr ∈ (sortTools outputs).take k := by
      rw [heq] at hfr
      exact hfr
    have hcross : ∀ a ∈ (sortTools outputs).take k,
        ∀ b ∈ (sortTools outputs).drop k, toolBefore a b := by
      have h3 : ((sortTools outputs).take k ++
          (sortTools outputs).drop k).Pairwise toolBefore := by
        rw [List.take_append_drop]
        exact hsorted
      exact (List.pairwise_append.mp h3).2.2
    rcases hcross fr hfrtake o h2 with hlt | ⟨heqs, _⟩
    · rw [hfrs, hos] at hlt
      exact absurd hlt (by decide)
    · rw [hfrs, hos] at heqs
      exact absurd heqs (by decide)

/-- **C2**: for every gathered context in which each of the five sections
measures at most its configured capacity, `assemble` reports
`truncation_applied = false` and returns the gathered contents exactly
unchanged. -/
theorem assemble_noop_when_within_budget (cfg : BudgetConfig) (raw : ContextParts)
    (mi : List (List Char)) (touts : List ToolOutput)
    (hi : count_tokens raw.instructions ≤ cfg.instructions)
    (hg : count_tokens raw.goal ≤ cfg.goal)
    (hm : count_tokens raw.memory ≤ cfg.memory)
    (hr : count_tokens raw.retrieval ≤ cfg.retrieval)
    (ht : count_tokens raw.tool_outputs ≤ cfg.tool_outputs) :
    (assemble cfg raw mi touts).truncation_applied = false ∧
    (assemble cfg raw mi touts).context_parts = raw := by
  have hv : (validate_context cfg raw).1 = true :=
    (validate_context_valid_iff cfg raw).mpr ⟨hi, hg, hm, hr, ht⟩
  constructor <;> simp [assemble, hv]

/-- Witness for **C2**: a small everywhere-within-budget context assembles
unchanged under the default capacities. -/
theorem assemble_noop_when_within_budget_witness :
    (assemble ⟨255, 1500, 55, 550, 855⟩
      ⟨"Be helpful.".toList, "What is RAG?".toList, [], [], []⟩
      [] []).truncation_applied = false ∧
    (assemble ⟨255, 1500, 55, 550, 855⟩
      ⟨"Be helpful.".toList, "What is RAG?".toList, [], [], []⟩
      [] []).context_parts =
      ⟨"Be helpful.".toList, "What is RAG?".toList, [], [], []⟩ :=
  assemble_noop_when_within_budget ⟨255, 1500, 55, 550, 855⟩
    ⟨"Be helpful.".toList, "What is RAG?".toList, [], [], []⟩ [] []
    (by decide) (by decide) (by decide) (by decide) (by decide)

/-- Counterexample to **C1** as stated: no hard fallback exists in the code —
the final re-validation in `assemble` only logs.  With memory capacity 2 and
two one-token memory items, `truncate_memory` keeps both items, whose
newline join measures 3 tokens, so the returned memory section (a
non-instructions section) still exceeds its capacity after `assemble`
completes with `truncation_applied = true`. -/
theorem assemble_memory_residual_overage_cex :
    (⟨255, 1500, 2, 550, 855⟩ : BudgetConfig).memory <
      count_tokens (assemble ⟨255, 1500, 2, 550, 855⟩
        ⟨[], [], "abcdefg\nabcdefg".toList, [], []⟩
        ["abcdefg".toList, "abcdefg".toList] []).context_parts.memory ∧
    (assemble ⟨255, 1500, 2, 550, 855⟩
      ⟨[], [], "abcdefg\nabcdefg".toList, [], []⟩
      ["abcdefg".toList, "abcdefg".toList] []).truncation_applied = true := by
  decide

/-- **C1** (amended): after `assemble` completes, the goal section (for goal
capacity ≥ 3) and the retrieval section (for retrieval capacity ≥ 1) measure
at most their configured capacities; the memory and tool-output sections may
remain over capacity — their truncation strategies re-derive content from
collaborator snapshots whose formatted join is never re-checked — and the
re-validation step only logs a residual overage, applying no hard
fallback. -/
theorem assemble_goal_retrieval_within_capacity (cfg : BudgetConfig)
    (raw : ContextParts) (mi : List (List Char)) (touts : List ToolOutput)
    (hg3 : 3 ≤ cfg.goal) (hr1 : 1 ≤ cfg.retrieval) :
    count_tokens (assemble cfg raw mi touts).context_parts.goal ≤ cfg.goal ∧
    count_tokens (assemble cfg raw mi touts).context_parts.retrieval ≤
      cfg.retrieval := by
  by_cases hv : (validate_context cfg raw).1 = true
  · have hcounts := (validate_context_valid_iff cfg raw).mp hv
    have hctx : (assemble cfg raw mi touts).context_parts = raw := by
      simp [assemble, hv]
    rw [hctx]
    exact ⟨hcounts.2.1, hcounts.2.2.2.1⟩
  · have hctx : (assemble cfg raw mi touts).context_parts =
        (apply_truncation cfg raw mi touts (validate_context cfg raw).2.2).1 := by
      simp [assemble, hv]
    have hgb : get_section_budget cfg "goal" = cfg.goal := by
      simp [get_section_budget]
    have hrb : get_section_budget cfg "retrieval" = cfg.retrieval := by
      simp [get_section_budget]
    rw [hctx, apply_truncation]
    constructor
    · rw [applyLoop_goal_eq]
      by_cases hany : (prioritize_sections
          (validate_context cfg raw).2.2).any (fun e => e.1 == "goal") = true
      · rw [if_pos hany, hgb]
        exact truncate_goal_count_le raw.goal cfg.goal hg3
      · rw [if_neg hany]
        have hiff := validate_context_lookup_goal cfg raw
        have hanyiff := prioritize_sections_any_goal (validate_context cfg raw).2.2
        rw [hanyiff] at hany
        by_cases hover : cfg.goal < count_tokens raw.goal
        · exact absurd (hiff.mpr hover) hany
        · omega
    · rw [applyLoop_retrieval_eq]
      by_cases hany : (prioritize_sections
          (validate_context cfg raw).2.2).any (fun e => e.1 == "retrieval") = true
      · rw [if_pos hany, hrb]
        by_cases hover : cfg.retrieval < count_tokens raw.retrieval
        · rw [if_pos hover]
          exact truncate_to_budget_count_le raw.retrieval cfg.retrieval hr1
        · rw [if_neg hover]
          omega
      · rw [if_neg hany]
        have hiff := validate_context_lookup_retrieval cfg raw
        have hanyiff :=
          prioritize_sections_any_retrieval (validate_context cfg raw).2.2
        rw [hanyiff] at hany
        by_cases hover : cfg.retrieval < count_tokens raw.retrieval
        · exact absurd (hiff.mpr hover) hany
        · omega

/-- Witness for **C1** (amended) at a context with over-budget goal and
retrieval sections against capacities goal = 3, retrieval = 1. -/
theorem assemble_goal_retrieval_within_capacity_witness :
    count_tokens (assemble ⟨255, 3, 55, 1, 855⟩
      ⟨[], "abcdefghijklmnop".toList, [], "abcdefghij".toList, []⟩
      [] []).context_parts.goal ≤ 3 ∧
    count_tokens (assemble ⟨255, 3, 55, 1, 855⟩
      ⟨[], "abcdefghijklmnop".toList, [], "abcdefghij".toList, []⟩
      [] []).context_parts.retrieval ≤ 1 :=
  assemble_goal_retrieval_within_capacity ⟨255, 3, 55, 1, 855⟩
    ⟨[], "abcdefghijklmnop".toList, [], "abcdefghij".toList, []⟩ [] []
    (by decide) (by decide)

theorem prioritize_sections_plan_filter (o : List (String × Nat)) :
    (prioritize_sections o).map (fun e => e.1) =
      ["memory", "tool_outputs", "retrieval", "goal", "instructions"].filter
        (fun s => (o.lookup s).isSome) := by
  unfold prioritize_sections priority_order
  cases h1 : o.lookup "memory" <;> cases h2 : o.lookup "tool_outputs" <;>
    cases h3 : o.lookup "retrieval" <;> cases h4 : o.lookup "goal" <;>
    cases h5 : o.lookup "instructions" <;>
    simp [h1, h2, h3, h4, h5, List.filterMap, List.filter]

/-- **C7**: for EVERY overage map, the truncation plan processes exactly the
sections present in the map, in the fixed priority order memory →
tool_outputs → retrieval → goal → instructions (stated as: the planned
section names are that five-name list filtered to the map's keys);
consequently, given simultaneous overages in exactly memory, goal and
retrieval, the per-section truncation explanation log of `assemble` lists
memory before retrieval and retrieval before goal. -/
theorem truncation_plan_fixed_priority_order (cfg : BudgetConfig)
    (raw : ContextParts) (mi : List (List Char)) (touts : List ToolOutput)
    (hi : count_tokens raw.instructions ≤ cfg.instructions)
    (ht : count_tokens raw.tool_outputs ≤ cfg.tool_outputs)
    (hm : cfg.memory < count_tokens raw.memory)
    (hg : cfg.goal < count_tokens raw.goal)
    (hr : cfg.retrieval < count_tokens raw.retrieval) :
    (∀ o : List (String × Nat),
      (prioritize_sections o).map (fun e => e.1) =
        ["memory", "tool_outputs", "retrieval", "goal", "instructions"].filter
          (fun s => (o.lookup s).isSome)) ∧
    (prioritize_sections (validate_context cfg raw).2.2).map (fun e => e.1) =
      ["memory", "retrieval", "goal"] ∧
    (assemble cfg raw mi touts).truncation_details.map (fun e => e.1) =
      ["memory", "retrieval", "goal"] := by
  have hov : (validate_context cfg raw).2.2 =
      [("goal", count_tokens raw.goal - cfg.goal),
       ("memory", count_tokens raw.memory - cfg.memory),
       ("retrieval", count_tokens raw.retrieval - cfg.retrieval)] := by
    simp only [validate_context]
    rw [if_neg (by omega), if_pos hg, if_pos hm, if_pos hr, if_neg (by omega)]
    simp
  have hplan : prioritize_sections (validate_context cfg raw).2.2 =
      [("memory", count_tokens raw.memory - cfg.memory, "FIFO queue"),
       ("retrieval", count_tokens raw.retrieval - cfg.retrieval,
         "Keep highest relevance"),
       ("goal", count_tokens raw.goal - cfg.goal, "Keep start and end")] := by
    rw [hov]
    simp [prioritize_sections, priority_order, List.lookup, List.filterMap]
  have hv1 : (validate_context cfg raw).1 = false := by
    have hco : (validate_context cfg raw).1 =
        ((validate_context cfg raw).2.2).isEmpty := by
      simp only [validate_context]
    rw [hco, hov]
    rfl
  have hdet : (assemble cfg raw mi touts).truncation_details =
      (apply_truncation cfg raw mi touts (validate_context cfg raw).2.2).2 := by
    simp [assemble, hv1]
  refine ⟨prioritize_sections_plan_filter, by rw [hplan]; rfl, ?_⟩
  rw [hdet, apply_truncation, hplan]
  simp [applyLoop, get_section_budget, hr]

/-- Witness for **C7**: the universal plan property instantiated at an
overage map containing only tool_outputs and instructions (exercising their
places in the fixed order), plus the explanation-log order at a context with
overages in exactly memory, goal and retrieval. -/
theorem truncation_plan_fixed_priority_order_witness :
    (prioritize_sections [("tool_outputs", 5), ("instructions", 2)]).map
        (fun e => e.1) =
      ["memory", "tool_outputs", "retrieval", "goal", "instructions"].filter
        (fun s => (([("tool_outputs", 5), ("instructions", 2)] :
          List (String × Nat)).lookup s).isSome) ∧
    (prioritize_sections (validate_context ⟨255, 3, 1, 1, 855⟩
      ⟨[], "abcdefghijklmnop".toList, "abcdefghij".toList,
        "abcdefghij".toList, []⟩).2.2).map (fun e => e.1) =
      ["memory", "retrieval", "goal"] ∧
    (assemble ⟨255, 3, 1, 1, 855⟩
      ⟨[], "abcdefghijklmnop".toList, "abcdefghij".toList,
        "abcdefghij".toList, []⟩ [] []).truncation_details.map (fun e => e.1) =
      ["memory", "retrieval", "goal"] := by
  have h := truncation_plan_fixed_priority_order ⟨255, 3, 1, 1, 855⟩
    ⟨[], "abcdefghijklmnop".toList, "abcdefghij".toList,
      "abcdefghij".toList, []⟩ [] []
    (by decide) (by decide) (by decide) (by decide) (by decide)
  exact ⟨h.1 _, h.2.1, h.2.2⟩
